import Mathlib

/-!
Verification of the workspace-agents scaffolding/upgrade engine.

The JavaScript sources are embedded shallowly:

* strings are `List Char` (`Str`), matching JS string values;
* the filesystem is an association list from paths (segment lists) to
  entries (file / directory / symlink), and every fs-extra primitive used
  by the code (`existsSync`, `readFileSync`, `writeFileSync`, `moveSync`,
  `removeSync`, `ensureDirSync`, `symlinkSync`, `readlinkSync`) is
  translated to a function on that state;
* fallible operations return `Except FsErr`;
* the stateful behaviour of JavaScript global regexes (`lastIndex`
  carry-over of `RegExp.prototype.test`) is modelled explicitly, since
  every pattern the code compiles is a string literal.
-/

set_option autoImplicit false

namespace WA

/-! ## Strings as character lists -/

abbrev Str := List Char

/-- Convert a Lean string literal to the `List Char` representation. -/
def str (s : String) : Str := s.data

/-- `hasPre pat s` : `pat` occurs at the very front of `s`. -/
def hasPre : Str → Str → Bool
  | [], _ => true
  | _ :: _, [] => false
  | a :: as, b :: bs => a = b && hasPre as bs

/-- Index of the leftmost occurrence of `pat` in `s`, if any. -/
def findIdx : Str → Str → Option Nat
  | s, pat =>
    if hasPre pat s then some 0
    else
      match s with
      | [] => none
      | _ :: t => (findIdx t pat).map (· + 1)

/-- JS `String.prototype.includes`: substring containment. -/
def containsSub (s pat : Str) : Bool := (findIdx s pat).isSome

/-- Leftmost occurrence of `pat` in `s` at an index `≥ start`
(used for the `lastIndex` semantics of JS global regexes). -/
def findFrom (s pat : Str) (start : Nat) : Option Nat :=
  (findIdx (s.drop start) pat).map (· + start)

/-- `RegExp.prototype.test` of a `g`-flagged regex whose pattern is the
literal string `pat`: searches from `lastIndex`, returns the hit flag and
the updated `lastIndex` (end of match on success, `0` on failure). -/
def jsTestG (pat : Str) (lastIndex : Nat) (content : Str) : Bool × Nat :=
  match findFrom content pat lastIndex with
  | some i => (true, i + pat.length)
  | none => (false, 0)

/-- Helper for `replaceAll` with a nonempty pattern `p0 :: ps`; fuel keeps
the recursion structural (`replaceAll` supplies `s.length`, which is
enough fuel since every step consumes at least one character). -/
def replA (p0 : Char) (ps rep : Str) : Nat → Str → Str
  | 0, s => s
  | fuel + 1, s =>
    match s with
    | [] => []
    | c :: rest =>
      if hasPre (p0 :: ps) (c :: rest) then
        rep ++ replA p0 ps rep fuel (List.drop ps.length rest)
      else
        c :: replA p0 ps rep fuel rest

/-- JS `String.prototype.replace` with a `g`-flagged literal pattern and a
replacement string free of `$`-escapes: global leftmost, non-overlapping
literal replacement. -/
def replaceAll (s pat rep : Str) : Str :=
  match pat with
  | [] => s
  | p0 :: ps => replA p0 ps rep s.length s

/-- Character-list splitting on a separator character. -/
def splitCh (sep : Char) : Str → List Str
  | [] => [[]]
  | c :: rest =>
    let r := splitCh sep rest
    if c = sep then [] :: r
    else
      match r with
      | [] => [[c]]
      | h :: t => (c :: h) :: t

/-! ## Version checker (`version-checker.js`) -/

/-- JS `Number(s)` restricted to the shapes that occur in version strings:
`some n` for a (possibly empty) digit string (`Number('') = 0`), `none`
(NaN) otherwise. -/
def jsNumber (s : Str) : Option Nat :=
  if s.all Char.isDigit then
    some (s.foldl (fun acc c => acc * 10 + (c.toNat - 48)) 0)
  else none

/-- `latest.split('.').map(Number)` -/
def verVals (s : Str) : List (Option Nat) := (splitCh '.' s).map jsNumber

/-- `(l[i] || 0)`: missing components and NaN (and `0`) collapse to `0`. -/
def valAt (l : List (Option Nat)) (i : Nat) : Nat :=
  match l.get? i with
  | some (some n) => n
  | _ => 0

/-- `isNewer` of `version-checker.js`: the three-iteration comparison loop,
unrolled. -/
def isNewer (latest current : Str) : Bool :=
  let l := verVals latest
  let c := verVals current
  if valAt l 0 > valAt c 0 then true
  else if valAt l 0 < valAt c 0 then false
  else if valAt l 1 > valAt c 1 then true
  else if valAt l 1 < valAt c 1 then false
  else if valAt l 2 > valAt c 2 then true
  else if valAt l 2 < valAt c 2 then false
  else false

/-- The `available` field computed by `check()`:
`latest !== pkg.version && isNewer(latest, pkg.version)`. -/
def availableFlag (latest current : Str) : Bool :=
  !(latest == current) && isNewer latest current

/-! ## Filesystem model

A path is its list of segments; the filesystem is an association list
from paths to entries.  Directory trees are flat: a directory owns an
explicit `.dir` entry and its children are separate entries whose paths
extend the directory's path. -/

abbrev Path := List String

inductive Entry where
  | file (content : Str)
  | dir
  | symlink (target : String)
  deriving DecidableEq, Repr

abbrev FS := List (Path × Entry)

def lookupFS (fs : FS) (p : Path) : Option Entry :=
  (fs.find? (fun e => decide (e.1 = p))).map (·.2)

/-- `segsLe p q` : path `p` is `q` or an ancestor of `q` (segment-wise). -/
def segsLe : Path → Path → Bool
  | [], _ => true
  | _ :: _, [] => false
  | a :: as, b :: bs => decide (a = b) && segsLe as bs

/-- Split a raw path string on `/` (own implementation, kernel-friendly). -/
def splitSlash (t : String) : List String :=
  (splitCh '/' t.data).map (fun cs => String.mk cs)

/-- Resolve `..` / `.` segments of `segs` against the base path `base`
(how the OS resolves a relative symlink target). -/
def normJoin (base : Path) (segs : List String) : Path :=
  segs.foldl
    (fun acc seg =>
      if seg = "." ∨ seg = "" then acc
      else if seg = ".." then acc.dropLast
      else acc ++ [seg])
    base

/-- Absolute path a symlink stored at `linkPath` with raw target string
`target` points at. -/
def resolveLink (linkPath : Path) (target : String) : Path :=
  normJoin linkPath.dropLast (splitSlash target)

/-- `path.join(root, rel)` for the plain relative paths the manifest and
migration tables use. -/
def jp (root : Path) (rel : String) : Path := root ++ splitSlash rel

/-- `fs.existsSync`, which follows symlinks: a dangling link does not
exist.  Fuel bounds symlink chains (the OS errors out on long chains). -/
def existsFuel : Nat → FS → Path → Bool
  | 0, _, _ => false
  | n + 1, fs, p =>
    match lookupFS fs p with
    | none => false
    | some (.symlink t) => existsFuel n fs (resolveLink p t)
    | some _ => true

def existsSync (fs : FS) (p : Path) : Bool := existsFuel 40 fs p

/-- `fs.readFileSync(p, 'utf-8')` on a regular file. -/
def readFileFS (fs : FS) (p : Path) : Option Str :=
  match lookupFS fs p with
  | some (.file c) => some c
  | _ => none

/-- Replace the entry at `p` if present, else append it. -/
def setFS (fs : FS) (p : Path) (e : Entry) : FS :=
  if (lookupFS fs p).isSome then
    fs.map (fun x => if x.1 = p then (p, e) else x)
  else fs ++ [(p, e)]

/-- `fs.removeSync(p)`: delete the whole subtree rooted at `p`. -/
def removeFS (fs : FS) (p : Path) : FS :=
  fs.filter (fun e => !segsLe p e.1)

/-- Relocate the subtree rooted at `src` to `dst`. -/
def moveFS (fs : FS) (src dst : Path) : FS :=
  fs.map (fun e =>
    if segsLe src e.1 then (dst ++ e.1.drop src.length, e.2) else e)

/-- All nonempty prefixes of `p`, shortest first (the chain of directories
`mkdir -p` walks). -/
def ancestors (p : Path) : List Path :=
  (List.range p.length).map (fun i => p.take (i + 1))

/-- `fs.ensureDirSync(p)` (`mkdir -p`): create every missing ancestor. -/
def ensureDirFS (fs : FS) (p : Path) : FS :=
  (ancestors p).foldl
    (fun acc q => if (lookupFS acc q).isSome then acc else acc ++ [(q, Entry.dir)])
    fs

/-- `fs.writeFileSync` preceded by `ensureDirSync(path.dirname(p))`, the
combination `file-ops.writeFile` performs. -/
def writeFileFS (fs : FS) (p : Path) (content : Str) : FS :=
  setFS (ensureDirFS fs p.dropLast) p (.file content)

inductive FsErr where
  | enoent
  | destExists
  | eexistLink
  | missingTemplate
  | moveFailed
  deriving DecidableEq, Repr

instance {ε α : Type} [DecidableEq ε] [DecidableEq α] : DecidableEq (Except ε α) :=
  fun x y =>
    match x, y with
    | .ok a, .ok b =>
      if h : a = b then isTrue (by rw [h])
      else isFalse (by intro he; cases he; exact h rfl)
    | .error a, .error b =>
      if h : a = b then isTrue (by rw [h])
      else isFalse (by intro he; cases he; exact h rfl)
    | .ok _, .error _ => isFalse (by intro he; cases he)
    | .error _, .ok _ => isFalse (by intro he; cases he)

/-- `fs-extra` `moveSync` (default `overwrite: false`): fails when the
source entry is missing or the destination entry already exists. -/
def moveSync (fs : FS) (src dst : Path) : Except FsErr FS :=
  if (lookupFS fs src).isNone then .error .enoent
  else if (lookupFS fs dst).isSome then .error .destExists
  else .ok (moveFS fs src dst)

/-! ## Symlink operations (`symlink-ops.js`) -/

/-- Host facts the symlink code branches on: the platform and whether
`symlinkSync` is permitted (Windows developer mode / admin). -/
structure HostEnv where
  win32 : Bool
  symlinkWorks : Bool
  /-- `path.join(os.tmpdir(), 'symlink-test-<Date.now()>')` of the
  capability probe. -/
  testDir : Path
  deriving Repr

/-- Write-effect trace entries (reads are not traced). -/
inductive WriteEv where
  | mkdirEv (p : Path)
  | writeEv (p : Path)
  | linkEv (p : Path)
  | rmEv (p : Path)
  deriving DecidableEq, Repr

/-- `isSymlinkSupported()`: on win32 it creates a throw-away directory,
target file and symlink under `tmpdir` and removes them again; elsewhere
it is a pure `true`.  Returns the verdict, the filesystem after the call
and the trace of write operations performed. -/
def isSymlinkSupported (env : HostEnv) (fs : FS) : Bool × FS × List WriteEv :=
  if env.win32 then
    let fs1 := ensureDirFS fs env.testDir
    let tgt := env.testDir ++ ["test-target"]
    let lnk := env.testDir ++ ["test-link"]
    let fs2 := writeFileFS fs1 tgt (str "test")
    if env.symlinkWorks then
      let fs3 := setFS fs2 lnk (.symlink "test-target")
      (true, removeFS fs3 env.testDir,
        [.mkdirEv env.testDir, .writeEv tgt, .linkEv lnk, .rmEv env.testDir])
    else
      (false, removeFS fs2 env.testDir,
        [.mkdirEv env.testDir, .writeEv tgt, .rmEv env.testDir])
  else (true, fs, [])

/-- `statSync(p).isDirectory()` after following links. -/
def statIsDir : Nat → FS → Path → Bool
  | 0, _, _ => false
  | n + 1, fs, p =>
    match lookupFS fs p with
    | some (.symlink t) => statIsDir n fs (resolveLink p t)
    | some .dir => true
    | _ => false

/-- `createSymlink(target, linkPath, options)` of `symlink-ops.js`.
`cwd` is the process working directory (the bare `fs.existsSync(target)`
in the source resolves the raw target string against it).  Returns
`true` if the link was created, `false` if skipped, and an error when
`symlinkSync` throws a non-EPERM error (notably `EEXIST` when the link
path still holds an entry). -/
def createSymlinkFS (env : HostEnv) (cwd : Path) (target : String)
    (linkPath : Path) (force : Bool) (fs : FS) : Except FsErr (Bool × FS) :=
  let fs0 := ensureDirFS fs linkPath.dropLast
  let afterCheck : Bool × FS :=
    if existsSync fs0 linkPath then
      if !force then
        match lookupFS fs0 linkPath with
        | some (.symlink t) =>
          if t = target then (true, fs0)  -- return false: already correct
          else (false, removeFS fs0 linkPath)
        | _ => (false, removeFS fs0 linkPath)
      else (false, removeFS fs0 linkPath)
    else (false, fs0)
  if afterCheck.1 then .ok (false, afterCheck.2)
  else
    let fs1 := afterCheck.2
    -- const type = win32 && targetIsDir ? 'dir' : 'file'  (state-irrelevant)
    let _targetIsDir :=
      existsSync fs1 (normJoin cwd (splitSlash target)) &&
        statIsDir 40 fs1 (normJoin cwd (splitSlash target))
    if (lookupFS fs1 linkPath).isSome then .error .eexistLink
    else if env.win32 && !env.symlinkWorks then .ok (false, fs1)
    else .ok (true, setFS fs1 linkPath (.symlink target))

/-! ## Template engine (`template-engine.js`) -/

/-- `'\x7b'` and `'\x7d'`, the placeholder delimiter characters. -/
def lbr : Char := '\x7b'

def rbr : Char := '\x7d'

/-- The literal text the regex `new RegExp('\\' + lbr + ..., 'g')` built by
`renderTemplate` matches for key `k` (keys are plain identifier strings,
so the pattern is literal). -/
def placeholder (k : Str) : Str := lbr :: lbr :: (k ++ [rbr, rbr])

/-- `renderTemplate(content, variables)`: one global replacement per map
entry, in entry order. -/
def renderTemplate (content : Str) (vs : List (Str × Str)) : Str :=
  vs.foldl (fun res kv => replaceAll res (placeholder kv.1) kv.2) content

/-- `loadTemplate` against the bundled template map; a missing template
throws (a fatal configuration error). -/
def loadTemplate (templates : List (String × Str)) (name : String) : Except FsErr Str :=
  match templates.find? (fun t => decide (t.1 = name)) with
  | some t => .ok t.2
  | none => .error .missingTemplate

/-! ## File ops (`file-ops.js`) -/

/-- `appendFile`: `ensureDirSync(dirname)` then `appendFileSync`
(creates the file when missing). -/
def appendFileFS (fs : FS) (p : Path) (content : Str) : FS :=
  writeFileFS fs p ((readFileFS fs p).getD [] ++ content)

/-- The existence-guarded `.gitignore` read `appendGitignore` performs. -/
def gitignoreRead (fs : FS) (root : Path) : Str :=
  if existsSync fs (jp root ".gitignore") then
    (readFileFS fs (jp root ".gitignore")).getD []
  else []

def gitignoreHeader : Str := str "# Workspace Agents" ++ ['\n']

def endsWithNl (s : Str) : Bool := s.getLast? = some '\n'

def intercalStr (sep : Str) (l : List Str) : Str := (l.intersperse sep).flatten

/-- `appendGitignore(root, lines)`: append the not-yet-present lines under
a header block; returns the new state and the lines actually added. -/
def appendGitignore (root : Path) (lines : List Str) (fs : FS) : FS × List Str :=
  let gp := jp root ".gitignore"
  let existing := gitignoreRead fs root
  let added := lines.filter (fun l => !containsSub existing l)
  if added.length > 0 then
    let toAppend :=
      (if endsWithNl existing then [] else ['\n']) ++
        gitignoreHeader ++ intercalStr ['\n'] added ++ ['\n']
    (appendFileFS fs gp toAppend, added)
  else (fs, added)

/-- `copyDir` (`fs.copySync`) from a bundled source tree into the target. -/
def copyDirFS (bundled : FS) (src dst : Path) (fs : FS) : FS :=
  bundled.foldl
    (fun acc e =>
      if segsLe src e.1 then setFS acc (dst ++ e.1.drop src.length) e.2 else acc)
    fs

/-! ## Manifest and options -/

structure FileSpec where
  dest : String
  template : String
  skipIfExists : Bool
  deriving DecidableEq, Repr

structure LinkSpec where
  target : String
  link : String
  deriving DecidableEq, Repr

structure Manifest where
  directories : List String
  files : List FileSpec
  symlinks : List LinkSpec
  gitignoreAppend : List Str
  skillsToCopy : List String
  deriving DecidableEq, Repr

structure Options where
  force : Bool
  skipSymlinks : Bool
  deriving DecidableEq, Repr

/-! ## Scaffold plan / apply (`scaffold.js`) -/

/-- One entry of `changes.files` as built by the scaffold `plan`. -/
structure FileAct where
  action : String
  path : String
  reason : Option String
  template : Option String
  vars : List (Str × Str)
  deriving DecidableEq, Repr

structure ScaffoldChanges where
  directories : List String
  files : List FileAct
  symlinks : List LinkSpec
  gitignore : List Str
  skillsToCopy : List String
  deriving DecidableEq, Repr

/-- The per-file decision of the scaffold `plan` loop over
`manifest.files`. -/
def planFileAct (fs : FS) (root : Path) (opts : Options)
    (vars : List (Str × Str)) (f : FileSpec) : FileAct :=
  let ex := existsSync fs (jp root f.dest)
  if ex && f.skipIfExists && !opts.force then
    ⟨"skip", f.dest, some "already exists", none, []⟩
  else if ex && !opts.force then
    ⟨"skip", f.dest, some "already exists (use --force to overwrite)", none, []⟩
  else
    ⟨"create", f.dest, none, some f.template, vars⟩

/-- `scaffold.plan(projectRoot, options)`.  `vars` are the frozen default
variables (`getDefaultVariables`).  Besides the changes object it returns
the filesystem after the call and the trace of filesystem writes the call
performed (the win32 symlink capability probe is the only writer). -/
def scaffoldPlan (m : Manifest) (vars : List (Str × Str)) (root : Path)
    (opts : Options) (env : HostEnv) (fs : FS) :
    ScaffoldChanges × FS × List WriteEv :=
  let dirs := m.directories.filter (fun d => !existsSync fs (jp root d))
  let files := m.files.map (planFileAct fs root opts vars)
  let symRes :=
    if opts.skipSymlinks then (fs, ([] : List WriteEv), ([] : List LinkSpec))
    else
      let probe := isSymlinkSupported env fs
      if probe.1 then
        (probe.2.1, probe.2.2,
          m.symlinks.filter
            (fun l => !existsSync probe.2.1 (jp root l.link) || opts.force))
      else (probe.2.1, probe.2.2, [])
  let fsS := symRes.1
  let gp := jp root ".gitignore"
  let existing := if existsSync fsS gp then (readFileFS fsS gp).getD [] else []
  let gitignore :=
    if m.gitignoreAppend.length > 0 then
      m.gitignoreAppend.filter (fun l => !containsSub existing l)
    else []
  (⟨dirs, files, symRes.2.2, gitignore, m.skillsToCopy⟩, fsS, symRes.2.1)

/-- `copySkillsToProject(skillNames, projectRoot)`. -/
def copySkills (bundled : FS) (names : List String) (root : Path) (fs : FS) : FS :=
  let destDir := jp root "agents/skills"
  let fs := ensureDirFS fs destDir
  names.foldl
    (fun acc name =>
      if existsSync bundled [name] && !existsSync acc (destDir ++ [name]) then
        copyDirFS bundled [name] (destDir ++ [name]) acc
      else acc)
    fs

/-- `scaffold.apply(changes, projectRoot)`.  Note the files loop calls
`fileOps.writeFile(path, content)` with no options object, so no
`skipIfExists` re-check happens at apply time. -/
def scaffoldApply (templates : List (String × Str)) (bundled : FS)
    (env : HostEnv) (cwd : Path) (ch : ScaffoldChanges) (root : Path)
    (fs : FS) : Except FsErr FS := do
  let fs := ch.directories.foldl (fun acc d => ensureDirFS acc (jp root d)) fs
  let fs ← ch.files.foldlM
    (fun acc f =>
      if f.action = "create" then do
        let body ← loadTemplate templates (f.template.getD "")
        pure (writeFileFS acc (jp root f.path) (renderTemplate body f.vars))
      else pure acc)
    fs
  let fs ← ch.symlinks.foldlM
    (fun acc l => do
      let r ← createSymlinkFS env cwd l.target (jp root l.link) true acc
      pure r.2)
    fs
  let fs := if ch.gitignore.length > 0 then (appendGitignore root ch.gitignore fs).1 else fs
  pure (if ch.skillsToCopy.length > 0 then copySkills bundled ch.skillsToCopy root fs else fs)

/-! ## Project detector (`project-detector.js`) -/

structure StructDetails where
  hasAgents : Bool
  hasAgentsMd : Bool
  hasTools : Bool
  hasSkills : Bool
  hasPlansLocal : Bool
  hasOldPlansLocal : Bool
  hasClaudeSkills : Bool
  hasLegacy : Bool
  deriving DecidableEq, Repr

structure StructAnalysis where
  needsUpgrade : Bool
  hasOldStructure : Bool
  details : StructDetails
  deriving DecidableEq, Repr

def analyzeStructure (fs : FS) (root : Path) : StructAnalysis :=
  let d : StructDetails :=
    ⟨existsSync fs (jp root "agents"),
      existsSync fs (jp root "AGENTS.md"),
      existsSync fs (jp root "agents/tools"),
      existsSync fs (jp root "agents/skills"),
      existsSync fs (jp root "agents/plans/local"),
      existsSync fs (jp root "plans-local"),
      existsSync fs (jp root ".claude/skills"),
      existsSync fs (jp root "agents/legacy")⟩
  let hasOld := d.hasTools || d.hasOldPlansLocal
  ⟨hasOld || (d.hasAgents && (!d.hasSkills || !d.hasPlansLocal || !d.hasClaudeSkills)),
    hasOld, d⟩

/-! ## Upgrade plan / apply (`context-forge/src/lib/upgrade.js`) -/

def MIGRATIONS_directories : List (String × String) :=
  [("agents/tools", "agents/skills"),
   ("plans-local", "agents/plans/local"),
   ("tasks", "agents/plans")]

/-- The four `g`-flagged terminology regexes; each pattern is a literal
string.  The regex objects are module level, so their `lastIndex` state
persists across the files of one `plan` run. -/
def MIGRATIONS_terminology : List (Str × Str) :=
  [(str "agents/tools", str "agents/skills"),
   (str "`tools/`", str "`skills/`"),
   (str "tools/", str "skills/"),
   (str "plans-local", str "agents/plans/local")]

structure MoveRec where
  from' : String
  to' : String
  deriving DecidableEq, Repr

structure ModRec where
  path : String
  updates : List (Str × Str)
  deriving DecidableEq, Repr

structure CreateRec where
  path : String
  template : Option String
  vars : List (Str × Str)
  isDir : Bool
  deriving DecidableEq, Repr

structure UpgChanges where
  moves : List MoveRec
  modifications : List ModRec
  creates : List CreateRec
  symlinks : List LinkSpec
  legacy : List MoveRec
  deriving DecidableEq, Repr

/-- Run `term.from.test(content)` over the terminology list, threading
each regex's `lastIndex` (`sts`); returns the collected updates and the
updated states. -/
def testTerms : List (Str × Str) → List Nat → Str → List (Str × Str) × List Nat
  | [], _, _ => ([], [])
  | (pat, t) :: terms, sts, content =>
    let r := jsTestG pat (sts.headD 0) content
    let rest := testTerms terms sts.tail content
    (if r.1 then (pat, t) :: rest.1 else rest.1, r.2 :: rest.2)

def filesToUpdate : List String := ["AGENTS.md", "agents/README.md", "README.md"]

/-- The `filesToUpdate` loop of the upgrade `plan`: regex state flows from
one file to the next. -/
def planMods (fs : FS) (root : Path) :
    List String → List Nat → List ModRec × List Nat
  | [], sts => ([], sts)
  | f :: files, sts =>
    if existsSync fs (jp root f) then
      let content := (readFileFS fs (jp root f)).getD []
      let r := testTerms MIGRATIONS_terminology sts content
      let rest := planMods fs root files r.2
      (if r.1.length > 0 then ⟨f, r.1⟩ :: rest.1 else rest.1, rest.2)
    else planMods fs root files sts

def criticalFiles : List String :=
  [".claude/skills/README.md", ".cursor/rules/project.mdc",
   ".github/copilot-instructions.md"]

def planCreates (m : Manifest) (vars : List (Str × Str)) (fs : FS)
    (root : Path) : List CreateRec :=
  criticalFiles.filterMap (fun f =>
    if !existsSync fs (jp root f) then
      match m.files.find? (fun mf => decide (mf.dest = f)) with
      | some mf => some ⟨f, some mf.template, vars, false⟩
      | none => none
    else none)

def dirSegs (p : String) : List String := (splitSlash p).dropLast

/-- The "ensure directories exist for creates" loop unshifts onto the
array it is iterating with `for...of`; whenever some create's parent
directory is missing it therefore revisits the same element forever.
This predicate is its divergence condition; when it is false the loop
adds nothing. -/
def creLoopDiverges (creates : List CreateRec) (fs : FS) (root : Path) : Bool :=
  creates.any (fun c => !existsSync fs (root ++ dirSegs c.path))

def oldPatterns : List String := ["CONTRIBUTING.md", "DEVELOPMENT.md"]

/-- `findLegacyFiles(projectRoot, analysis)`. -/
def findLegacyFiles (fs : FS) (root : Path) : List String :=
  oldPatterns.filter (fun p =>
    existsSync fs (jp root p) &&
      (containsSub ((readFileFS fs (jp root p)).getD []) (str "agents/tools") ||
        containsSub ((readFileFS fs (jp root p)).getD []) (str "plans-local")))

def jsBasename (p : String) : String := ((splitSlash p).getLast?).getD p

/-- `upgrade.plan(projectRoot, options)` of `context-forge`.  Returns
`none` when the creates/ensure-dirs loop diverges (see
`creLoopDiverges`); otherwise the changes object, the filesystem after
the call and the write trace (the win32 capability probe again being the
only writer). -/
def upgradePlan (m : Manifest) (vars : List (Str × Str)) (root : Path)
    (opts : Options) (env : HostEnv) (fs : FS) :
    Option (UpgChanges × FS × List WriteEv) :=
  let _analysis := analyzeStructure fs root
  let moves :=
    (MIGRATIONS_directories.filter (fun mg =>
      existsSync fs (jp root mg.1) && !existsSync fs (jp root mg.2))).map
      (fun mg => MoveRec.mk mg.1 mg.2)
  let mods := (planMods fs root filesToUpdate [0, 0, 0, 0]).1
  let creates := planCreates m vars fs root
  if creLoopDiverges creates fs root then none
  else
    let symRes :=
      if opts.skipSymlinks then (fs, ([] : List WriteEv), ([] : List LinkSpec))
      else
        let probe := isSymlinkSupported env fs
        if probe.1 then
          (probe.2.1, probe.2.2,
            m.symlinks.filter (fun l => !existsSync probe.2.1 (jp root l.link)))
        else (probe.2.1, probe.2.2, [])
    let fsS := symRes.1
    let legacy :=
      ((findLegacyFiles fsS root).filter (fun f =>
        !existsSync fsS (jp root ("agents/legacy/" ++ jsBasename f)))).map
        (fun f => MoveRec.mk f ("agents/legacy/" ++ jsBasename f))
    some (⟨moves, mods, creates, symRes.2.2, legacy⟩, fsS, symRes.2.1)

/-- `gitMv(from, to, cwd)` of `git-ops.js`.  `gitOk` abstracts whether the
`git mv` subprocess succeeds (it cannot succeed when the source entry is
missing or the destination entry is occupied); on `git mv` failure the
code falls back to `fs.moveSync`, and when that also fails it throws
`new Error('Failed to move ...')` (`FsErr.moveFailed`). -/
def gitMv (gitOk : Bool) (isRepo : Bool) (cwd : Path) (fromP toP : String)
    (fs : FS) : Except FsErr FS :=
  let fs := ensureDirFS fs (jp cwd toP).dropLast
  if !isRepo then moveSync fs (jp cwd fromP) (jp cwd toP)
  else if gitOk && (lookupFS fs (jp cwd fromP)).isSome &&
      (lookupFS fs (jp cwd toP)).isNone then
    .ok (moveFS fs (jp cwd fromP) (jp cwd toP))
  else
    match moveSync fs (jp cwd fromP) (jp cwd toP) with
    | .ok fs' => .ok fs'
    | .error _ => .error .moveFailed

/-- The move loops of `upgrade.apply` (used for `changes.moves` and
`changes.legacy`): `ensureDir(dirname(to))` then `gitMv`/`moveSync`.
Errors propagate — there is no per-operation catch. -/
def applyMoves (isGit : Bool) (gitOk : String → String → Bool)
    (moves : List MoveRec) (root : Path) (fs : FS) : Except FsErr FS :=
  moves.foldlM
    (fun acc mv => do
      let acc := ensureDirFS acc (jp root mv.to').dropLast
      if isGit then gitMv (gitOk mv.from' mv.to') true root mv.from' mv.to' acc
      else moveSync acc (jp root mv.from') (jp root mv.to'))
    fs

/-- The modifications loop of `upgrade.apply`: re-read the file, re-apply
the full fixed terminology list, write back unconditionally. -/
def applyMods (mods : List ModRec) (root : Path) (fs : FS) : Except FsErr FS :=
  mods.foldlM
    (fun acc md =>
      match readFileFS acc (jp root md.path) with
      | none => .error .enoent
      | some content =>
        .ok (setFS acc (jp root md.path)
          (.file (MIGRATIONS_terminology.foldl
            (fun c t => replaceAll c t.1 t.2) content))))
    fs

def stripTrailSlash (s : String) : String :=
  if s.data.getLast? = some '/' then String.mk s.data.dropLast else s

def applyCreates (templates : List (String × Str)) (creates : List CreateRec)
    (root : Path) (fs : FS) : Except FsErr FS :=
  creates.foldlM
    (fun acc c =>
      if c.isDir then .ok (ensureDirFS acc (jp root (stripTrailSlash c.path)))
      else do
        let body ← loadTemplate templates (c.template.getD "")
        pure (writeFileFS acc (jp root c.path) (renderTemplate body c.vars)))
    fs

/-- `upgrade.apply(changes, projectRoot)` of `context-forge`. -/
def upgradeApply (templates : List (String × Str)) (env : HostEnv)
    (cwd : Path) (isGit : Bool) (gitOk : String → String → Bool)
    (ch : UpgChanges) (root : Path) (fs : FS) : Except FsErr FS := do
  let fs ← applyMoves isGit gitOk ch.moves root fs
  let fs ← applyMods ch.modifications root fs
  let fs ← applyCreates templates ch.creates root fs
  let fs ← ch.symlinks.foldlM
    (fun acc l => do
      let r ← createSymlinkFS env cwd l.target (jp root l.link) true acc
      pure r.2)
    fs
  applyMoves isGit gitOk ch.legacy root fs

/-! ## Token view of templates (for the renderer analysis)

A well-formed template is an alternation of brace-free literal chunks and
`\x7b\x7bKEY\x7d\x7d` placeholders; `flattenToks` recovers the raw string.
`substToks` is the spec-side "replace each placeholder of a present key by
its value, leave the rest" description that `renderTemplate` is compared
against. -/

inductive Tok where
  | lit (s : Str)
  | ph (k : Str)
  deriving DecidableEq, Repr

def flattenToks : List Tok → Str
  | [] => []
  | .lit s :: ts => s ++ flattenToks ts
  | .ph k :: ts => placeholder k ++ flattenToks ts

def lookupVar (m : List (Str × Str)) (k : Str) : Option Str :=
  (m.find? (fun kv => decide (kv.1 = k))).map (·.2)

/-- Replace every placeholder token of key `k` by the literal `v`. -/
def substOne (k v : Str) : List Tok → List Tok :=
  List.map (fun t => match t with
    | .ph j => if j = k then .lit v else .ph j
    | .lit s => .lit s)

/-- Simultaneous substitution: each placeholder token whose key is in the
map becomes its value, the others stay. -/
def substToks (m : List (Str × Str)) : List Tok → List Tok :=
  List.map (fun t => match t with
    | .ph j =>
      match lookupVar m j with
      | some v => .lit v
      | none => .ph j
    | .lit s => .lit s)

/-- Identifier characters, the only characters the manifest's template
keys use; they are regex-literal and are not braces. -/
def safeKeyChar (c : Char) : Bool := c.isAlphanum || c = '_'

def braceFree (s : Str) : Bool := s.all (fun c => !(c = lbr || c = rbr))

def safeKey (k : Str) : Bool := k.all safeKeyChar && !k.isEmpty

def wfTok : Tok → Bool
  | .lit s => braceFree s
  | .ph k => safeKey k

/-- A benign variable-map entry: identifier key, value free of braces and
of `$` (so the JS replacement string is literal). -/
def wfEntry (kv : Str × Str) : Bool :=
  safeKey kv.1 && braceFree kv.2 && kv.2.all (fun c => !(c = '$'))

/-! ## Concrete fixtures used by counterexamples and witnesses -/

def mEmpty : Manifest := ⟨[], [], [], [], []⟩

/-- A manifest with one directory and one skip-protected file (scenario 1
of the spec's §8). -/
def mFix : Manifest := ⟨["agents"], [⟨"AGENTS.md", "agents-tmpl", true⟩], [], [], []⟩

def optsPlain : Options := ⟨false, false⟩

def optsNoSym : Options := ⟨false, true⟩

def optsForce : Options := ⟨true, true⟩

/-- A unix-like host. -/
def envU : HostEnv := ⟨false, true, ["tmp", "st"]⟩

/-- A win32 host with symlink capability; the probe directory is fresh. -/
def envW : HostEnv := ⟨true, true, ["tmp", "st"]⟩

def fsTmp : FS := [(["tmp"], .dir)]

/-- Two root files that both contain the literal `agents/tools`. -/
def fsC3 : FS :=
  [(["AGENTS.md"], .file (str "agents/tools")),
   (["README.md"], .file (str "agents/tools"))]

/-- A legacy layout: `agents/tools` exists, `agents/skills` does not. -/
def fsC2 : FS :=
  [(["agents"], .dir), (["agents", "tools"], .dir),
   (["agents", "tools", "x.md"], .file [])]

def ch4 : UpgChanges :=
  ⟨[⟨"gone", "agents/skills"⟩], [⟨"AGENTS.md", []⟩], [], [], []⟩

def fs4 : FS := [(["AGENTS.md"], .file (str "hello tools/ x"))]

def tmpl6 : List (String × Str) := [("agents-tmpl", str "# Agents")]

def ch6 : ScaffoldChanges :=
  ⟨[], [⟨"create", "AGENTS.md", none, some "agents-tmpl", []⟩], [], [], []⟩

def fs6 : FS := [(["AGENTS.md"], .file (str "# Existing"))]

/-- A correct but dangling symlink: `proj/l` stores target `t`, and
`proj/t` does not exist. -/
def fsC10 : FS := [(["proj"], .dir), (["proj", "l"], .symlink "t")]

/-- The same link with its target present. -/
def fsC10b : FS :=
  [(["proj"], .dir), (["proj", "t"], .file []), (["proj", "l"], .symlink "t")]

/-- Template tokens of scenario 5 of the spec's §8:
`Hello \x7b\x7bNAME\x7d\x7d, created \x7b\x7bDATE\x7d\x7d`. -/
def toksW : List Tok :=
  [.lit (str "Hello "), .ph (str "NAME"), .lit (str ", created "), .ph (str "DATE")]

def mW : List (Str × Str) := [(str "NAME", str "demo")]

/-- The upgrade plan computed on `fsC2` (checked by `decide` where used). -/
def upC2res : UpgChanges × FS × List WriteEv :=
  (⟨[⟨"agents/tools", "agents/skills"⟩], [], [], [], []⟩, fsC2, [])

end WA

/-! ### Theorems -/

namespace WA

theorem hasPre_refl_append (s t : Str) : hasPre s (s ++ t) = true := by
  induction s with
  | nil => rfl
  | cons a as ih => simp [hasPre, ih]

example : isNewer (str "1.2.4") (str "1.2.3") = true := by decide
example : isNewer (str "1.2.3") (str "1.2.3") = false := by decide
example : isNewer (str "2.0.0") (str "10.0.0") = false := by decide

/-- Claim C9: `isNewer` is a strict comparison: it is irreflexive, it is
asymmetric (never true in both directions), and consequently the
`available` flag computed by `check()` is false whenever the registry's
latest version string equals the current package version. -/
theorem c9_isNewer_strict (v a b : Str) :
    isNewer v v = false ∧
    (isNewer a b && isNewer b a) = false ∧
    availableFlag v v = false := by
  refine ⟨?_, ?_, ?_⟩
  · simp [isNewer]
  · simp only [isNewer]
    split_ifs <;> simp_all <;> omega
  · simp [availableFlag]

/-- Claim C1, counterexample: On a win32 host (symlinks enabled, probe
directory fresh) the scaffold `plan` call performs filesystem writes: the
symlink capability probe creates a directory, a file and a symlink under
the temp directory.  This refutes "only existence checks and reads
occur". -/
theorem c1_plan_writes_on_win32 :
    (scaffoldPlan mFix [] [] optsPlain envW fsTmp).2.2 ≠ [] := by decide

/-- Claim C3, failing input: Failing input for the terminology scan: `AGENTS.md` and
`README.md` both consist of the text `agents/tools`.  The content of
`README.md` matches the first terminology pattern, yet the upgrade plan
emits no modification record for `README.md` (the module-level `g`-regex
kept its `lastIndex` from testing `AGENTS.md`, so the second `test` call
starts past the end of the match and misses it). -/
theorem c3_matching_file_skipped :
    (upgradePlan mEmpty [] [] optsNoSym envU fsC3).map
        (fun r => r.1.modifications.map (fun md => md.path)) =
      some ["AGENTS.md"] ∧
    readFileFS fsC3 ["README.md"] = some (str "agents/tools") ∧
    containsSub (str "agents/tools") (str "agents/tools") = true := by decide

/-- Claim C4, counterexample: A change set whose single move has a vanished
source and which still contains a modification to apply: `upgrade.apply`
aborts with an error (the `fs.moveSync` throw is not caught), so the move
is fatal and the remaining modification is never executed — refuting
"records that single move as failed and continues". -/
theorem c4_move_failure_is_fatal :
    upgradeApply [] envU [] false (fun _ _ => false) ch4 [] fs4 =
      Except.error FsErr.enoent ∧
    ch4.modifications = [⟨"AGENTS.md", []⟩] ∧
    readFileFS fs4 ["AGENTS.md"] = some (str "hello tools/ x") := by decide

/-- Claim C5, counterexample: An existing destination whose `FileSpec` has
`skipIfExists = true` is still planned as a `create` when `force` is set
(the first branch of the decision requires `!options.force`), refuting
"never emitted as a create, even when force is set". -/
theorem c5_force_overrides_skipIfExists :
    (planFileAct fs6 [] optsForce [] ⟨"AGENTS.md", "agents-tmpl", true⟩).action =
      "create" ∧
    existsSync fs6 (jp [] "AGENTS.md") = true := by decide

/-- Claim C6, counterexample: A `create` record applied while the
destination already holds `# Existing`: the applier renders and writes
unconditionally (no `skipIfExists` re-check), so the file's content
changes to the rendered template — refuting "the destination's content
after apply equals its content before apply". -/
theorem c6_apply_overwrites_existing :
    scaffoldApply tmpl6 [] envU [] ch6 [] fs6 =
      Except.ok [(["AGENTS.md"], Entry.file (str "# Agents"))] ∧
    readFileFS fs6 ["AGENTS.md"] = some (str "# Existing") ∧
    str "# Agents" ≠ str "# Existing" := by decide

/-- Claim C7, counterexample: With the map `A ↦ x, B ↦ \x7b\x7bA\x7d\x7d`,
rendering the template `\x7b\x7bB\x7d\x7d` yields `\x7b\x7bA\x7d\x7d`: the
output contains a placeholder of a key that is present in the map, because
the value substituted for `B` re-introduced it after `A`'s pass had
already run.  This refutes the claim for arbitrary variable maps. -/
theorem c7_value_reintroduces_placeholder :
    renderTemplate (placeholder (str "B"))
        [(str "A", str "x"), (str "B", placeholder (str "A"))] =
      placeholder (str "A") ∧
    lookupVar [(str "A", str "x"), (str "B", placeholder (str "A"))] (str "A") =
      some (str "x") ∧
    containsSub (placeholder (str "A")) (placeholder (str "A")) = true := by decide

theorem lookupFS_cons (x : Path × Entry) (fs : FS) (p : Path) :
    lookupFS (x :: fs) p = if x.1 = p then some x.2 else lookupFS fs p := by
  by_cases hx : x.1 = p <;> simp [lookupFS, List.find?, hx]

theorem lookupFS_nil (p : Path) : lookupFS [] p = none := rfl

theorem lookupFS_append_of_none (fs l : FS) (p : Path)
    (h : lookupFS fs p = none) : lookupFS (fs ++ l) p = lookupFS l p := by
  induction fs with
  | nil => simp
  | cons x xs ih =>
    rw [lookupFS_cons] at h
    rw [List.cons_append, lookupFS_cons]
    by_cases hx : x.1 = p
    · simp [hx] at h
    · simp only [hx, if_false] at h ⊢
      exact ih h

theorem lookupFS_append_of_isSome (fs l : FS) (p : Path)
    (h : (lookupFS fs p).isSome = true) :
    lookupFS (fs ++ l) p = lookupFS fs p := by
  induction fs with
  | nil => simp [lookupFS_nil] at h
  | cons x xs ih =>
    rw [lookupFS_cons] at h ⊢
    rw [List.cons_append, lookupFS_cons]
    by_cases hx : x.1 = p
    · simp [hx]
    · simp only [hx, if_false] at h ⊢
      exact ih h

theorem lookup_map_set (fs : FS) (p : Path) (e : Entry)
    (h : (lookupFS fs p).isSome = true) :
    lookupFS (fs.map (fun x => if x.1 = p then (p, e) else x)) p = some e := by
  induction fs with
  | nil => simp [lookupFS_nil] at h
  | cons x xs ih =>
    rw [lookupFS_cons] at h
    by_cases hx : x.1 = p
    · simp [List.map_cons, hx, lookupFS_cons]
    · simp only [hx, if_false] at h
      simpa [List.map_cons, hx, lookupFS_cons] using ih h

theorem lookup_setFS_self (fs : FS) (p : Path) (e : Entry) :
    lookupFS (setFS fs p e) p = some e := by
  unfold setFS
  cases hl : lookupFS fs p with
  | none =>
    rw [if_neg (by simp [hl]), lookupFS_append_of_none fs _ p hl]
    simp [lookupFS_cons]
  | some e0 =>
    rw [if_pos (by simp [hl])]
    exact lookup_map_set fs p e (by simp [hl])

theorem readFile_writeFile (fs : FS) (p : Path) (c : Str) :
    readFileFS (writeFileFS fs p c) p = some c := by
  simp [readFileFS, writeFileFS, lookup_setFS_self]

theorem ensure_fold_skip (L : List Path) (fs : FS)
    (h : ∀ q ∈ L, (lookupFS fs q).isSome = true) :
    L.foldl
      (fun acc q => if (lookupFS acc q).isSome then acc else acc ++ [(q, Entry.dir)])
      fs = fs := by
  induction L with
  | nil => rfl
  | cons q L ih =>
    simp only [List.foldl_cons, if_pos (h q (by simp))]
    exact ih (fun q' hq' => h q' (by simp [hq']))

theorem ensure_fold_preserves (L : List Path) (fs : FS) (q : Path)
    (h : (lookupFS fs q).isSome = true) :
    (lookupFS
      (L.foldl
        (fun acc q => if (lookupFS acc q).isSome then acc else acc ++ [(q, Entry.dir)])
        fs) q).isSome = true := by
  induction L generalizing fs with
  | nil => exact h
  | cons x L ih =>
    simp only [List.foldl_cons]
    by_cases hx : (lookupFS fs x).isSome
    · rw [if_pos hx]; exact ih fs h
    · rw [if_neg hx]
      exact ih _ (by rw [lookupFS_append_of_isSome fs _ q h]; exact h)

theorem ensure_fold_mem (L : List Path) (fs : FS) (q : Path) (hq : q ∈ L) :
    (lookupFS
      (L.foldl
        (fun acc q => if (lookupFS acc q).isSome then acc else acc ++ [(q, Entry.dir)])
        fs) q).isSome = true := by
  induction L generalizing fs with
  | nil => cases hq
  | cons x L ih =>
    simp only [List.foldl_cons]
    rcases List.mem_cons.mp hq with hqx | hqL
    · subst hqx
      by_cases hx : (lookupFS fs q).isSome
      · rw [if_pos hx]; exact ensure_fold_preserves L fs q hx
      · rw [if_neg hx]
        refine ensure_fold_preserves L _ q ?_
        have hn : lookupFS fs q = none := by
          cases hl : lookupFS fs q
          · rfl
          · rw [hl] at hx; simp at hx
        rw [lookupFS_append_of_none fs _ q hn]
        simp [lookupFS_cons]
    · exact ih _ hqL

theorem ensureDir_all_present (fs : FS) (p : Path) (q : Path)
    (hq : q ∈ ancestors p) : (lookupFS (ensureDirFS fs p) q).isSome = true :=
  ensure_fold_mem (ancestors p) fs q hq

theorem ensureDir_of_all_present (fs : FS) (p : Path)
    (h : ∀ q ∈ ancestors p, (lookupFS fs q).isSome = true) :
    ensureDirFS fs p = fs :=
  ensure_fold_skip (ancestors p) fs h

theorem ensureDir_idem (fs : FS) (p : Path) :
    ensureDirFS (ensureDirFS fs p) p = ensureDirFS fs p :=
  ensureDir_of_all_present _ p (fun q hq => ensureDir_all_present fs p q hq)

/-- Claim C4, amended: When the first planned move's source no longer
exists at apply time, the failure is *fatal*: in a non-git target the
`fs.moveSync` throw propagates (`enoent`); in a git target `git mv`
cannot succeed, the plain-move fallback also fails, and `gitMv` throws
its own error (`moveFailed`).  In both cases `upgrade.apply` aborts with
the error and executes none of the remaining operations — there is no
per-operation catch or failure report. -/
theorem c4_move_failure_aborts (templates : List (String × Str))
    (env : HostEnv) (cwd : Path) (isGit : Bool)
    (gitOk : String → String → Bool) (ch : UpgChanges) (root : Path)
    (fs : FS) (mv : MoveRec) (rest : List MoveRec)
    (hmv : ch.moves = mv :: rest)
    (hsrc : lookupFS (ensureDirFS fs (jp root mv.to').dropLast)
        (jp root mv.from') = none) :
    upgradeApply templates env cwd isGit gitOk ch root fs =
      .error (if isGit then FsErr.moveFailed else FsErr.enoent) := by
  cases isGit
  · have hstep :
        moveSync (ensureDirFS fs (jp root mv.to').dropLast)
          (jp root mv.from') (jp root mv.to') = .error .enoent := by
      simp [moveSync, hsrc]
    have hm : applyMoves false gitOk ch.moves root fs = .error FsErr.enoent := by
      rw [hmv]
      simp [applyMoves, List.foldlM, hstep, Bind.bind, Except.bind]
    simp [upgradeApply, hm, Bind.bind, Except.bind]
  · have hidem :
        ensureDirFS (ensureDirFS fs (jp root mv.to').dropLast)
          (jp root mv.to').dropLast =
        ensureDirFS fs (jp root mv.to').dropLast :=
      ensureDir_idem fs _
    have hstep :
        gitMv (gitOk mv.from' mv.to') true root mv.from' mv.to'
          (ensureDirFS fs (jp root mv.to').dropLast) = .error .moveFailed := by
      simp [gitMv, hidem, hsrc, moveSync]
    have hm : applyMoves true gitOk ch.moves root fs = .error FsErr.moveFailed := by
      rw [hmv]
      simp [applyMoves, List.foldlM, hstep, Bind.bind, Except.bind]
    simp [upgradeApply, hm, Bind.bind, Except.bind]

/-- Claim C4, witness. -/
theorem c4_witness :
    upgradeApply [] envU [] false (fun _ _ => false) ch4 [] fs4 =
      .error (if false then FsErr.moveFailed else FsErr.enoent) :=
  c4_move_failure_aborts [] envU [] false (fun _ _ => false) ch4 []
    fs4 ⟨"gone", "agents/skills"⟩ [] (by decide) (by decide)

/-- Claim C10, amended: When the link path's entry is a symlink whose
stored target equals the requested target, the link *resolves*
(`existsSync` is true — the target exists), and the link's parent chain is
in place, `createSymlink` without `force` returns `false` and leaves the
filesystem exactly as it was; a repeated identical call is therefore a
no-op.  (The counterexample shows the resolving requirement cannot be
dropped: for a dangling link the call throws instead.) -/
theorem c10_existing_correct_link_is_noop (env : HostEnv) (cwd : Path)
    (fs : FS) (linkPath : Path) (target : String)
    (h1 : lookupFS fs linkPath = some (.symlink target))
    (h2 : existsSync fs linkPath = true)
    (h3 : ensureDirFS fs linkPath.dropLast = fs) :
    createSymlinkFS env cwd target linkPath false fs = .ok (false, fs) := by
  simp [createSymlinkFS, h1, h2, h3]

/-- Claim C10, witness. -/
theorem c10_witness :
    createSymlinkFS envU ["proj"] "t" ["proj", "l"] false fsC10b =
      .ok (false, fsC10b) :=
  c10_existing_correct_link_is_noop envU ["proj"] fsC10b ["proj", "l"] "t"
    (by decide) (by decide) (by decide)

/-- Claim C6, amended: At apply time the scaffold applier does *not*
re-check `skipIfExists`: for a `create` record it renders the template
with the frozen variables and writes unconditionally, so after apply the
destination's content equals the rendered template (even when the file
appeared, with different content, between plan and apply). -/
theorem c6_create_apply_writes_unconditionally
    (templates : List (String × Str)) (bundled : FS) (env : HostEnv)
    (cwd : Path) (root : Path) (fs : FS) (act : FileAct) (body : Str)
    (hact : act.action = "create")
    (htmpl : loadTemplate templates (act.template.getD "") = .ok body) :
    scaffoldApply templates bundled env cwd ⟨[], [act], [], [], []⟩ root fs =
      .ok (writeFileFS fs (jp root act.path) (renderTemplate body act.vars)) ∧
    readFileFS (writeFileFS fs (jp root act.path) (renderTemplate body act.vars))
        (jp root act.path) = some (renderTemplate body act.vars) := by
  refine ⟨?_, readFile_writeFile _ _ _⟩
  simp [scaffoldApply, hact, htmpl, List.foldlM]

/-- Claim C6, witness. -/
theorem c6_witness :
    scaffoldApply tmpl6 [] envU [] ch6 [] fs6 =
      .ok (writeFileFS fs6 (jp [] "AGENTS.md")
        (renderTemplate (str "# Agents") [])) :=
  (c6_create_apply_writes_unconditionally tmpl6 [] envU [] [] fs6
    ⟨"create", "AGENTS.md", none, some "agents-tmpl", []⟩ (str "# Agents")
    (by decide) (by decide)).1

theorem segsLe_append (p q : Path) : segsLe p (p ++ q) = true := by
  induction p with
  | nil => rfl
  | cons a as ih => simp [segsLe, ih]

theorem segsLe_refl (p : Path) : segsLe p p = true := by
  simpa using segsLe_append p []

theorem lookupFS_none_of (fs : FS) (p : Path) (h : ∀ e ∈ fs, e.1 ≠ p) :
    lookupFS fs p = none := by
  induction fs with
  | nil => rfl
  | cons x xs ih =>
    rw [lookupFS_cons, if_neg (h x (by simp))]
    exact ih (fun e he => h e (by simp [he]))

theorem removeFS_restores (fs extra : FS) (d : Path)
    (hfs : ∀ e ∈ fs, segsLe d e.1 = false)
    (hex : ∀ e ∈ extra, segsLe d e.1 = true) :
    removeFS (fs ++ extra) d = fs := by
  unfold removeFS
  rw [List.filter_append]
  have h1 : fs.filter (fun e => !segsLe d e.1) = fs :=
    List.filter_eq_self.mpr (fun e he => by simp [hfs e he])
  have h2 : extra.filter (fun e => !segsLe d e.1) = [] :=
    List.filter_eq_nil_iff.mpr (fun e he => by simp [hex e he])
  rw [h1, h2, List.append_nil]

theorem ancestors_decomp (p : Path) (hp : p ≠ []) :
    ancestors p =
      ((List.range (p.length - 1)).map (fun i => p.take (i + 1))) ++ [p] := by
  unfold ancestors
  have hl : p.length = (p.length - 1) + 1 := by
    cases p with
    | nil => exact absurd rfl hp
    | cons a as => simp
  rw [hl, List.range_succ, List.map_append, List.map_singleton, ← hl,
    List.take_length]

theorem ensureDirFS_fresh (fs : FS) (p : Path) (hp : p ≠ [])
    (hnone : lookupFS fs p = none)
    (hanc : ∀ q ∈ ancestors p, q ≠ p → (lookupFS fs q).isSome = true) :
    ensureDirFS fs p = fs ++ [(p, Entry.dir)] := by
  unfold ensureDirFS
  rw [ancestors_decomp p hp, List.foldl_append]
  rw [ensure_fold_skip _ fs ?hpre]
  case hpre =>
    intro q hq
    rcases List.mem_map.mp hq with ⟨i, hi, rfl⟩
    have hilt : i < p.length - 1 := List.mem_range.mp hi
    have hlen : p.length ≠ 0 := by
      cases p with
      | nil => exact absurd rfl hp
      | cons a as => simp
    have hqa : p.take (i + 1) ∈ ancestors p := by
      unfold ancestors
      exact List.mem_map.mpr ⟨i, List.mem_range.mpr (by omega), rfl⟩
    refine hanc _ hqa ?_
    intro hcon
    have := congrArg List.length hcon
    rw [List.length_take] at this
    omega
  simp only [List.foldl_cons, List.foldl_nil]
  rw [if_neg (by simp [hnone])]

theorem probe_restores (env : HostEnv) (fs : FS)
    (hne : env.testDir ≠ [])
    (hanc : ∀ q ∈ ancestors env.testDir, q ≠ env.testDir →
      (lookupFS fs q).isSome = true)
    (hfresh : ∀ e ∈ fs, segsLe env.testDir e.1 = false) :
    (isSymlinkSupported env fs).2.1 = fs := by
  by_cases hw : env.win32
  case neg => simp [isSymlinkSupported, hw]
  case pos =>
  have hnone : lookupFS fs env.testDir = none :=
    lookupFS_none_of fs env.testDir (fun e he hc => by
      have := hfresh e he
      rw [hc, segsLe_refl] at this
      cases this)
  have h1 : ensureDirFS fs env.testDir = fs ++ [(env.testDir, Entry.dir)] :=
    ensureDirFS_fresh fs env.testDir hne hnone hanc
  set tgt := env.testDir ++ ["test-target"] with htgt
  set lnk := env.testDir ++ ["test-link"] with hlnk
  have hnotgt : ∀ e ∈ fs, e.1 ≠ tgt := by
    intro e he hc
    have := hfresh e he
    rw [hc, htgt, segsLe_append] at this
    cases this
  have hnolnk : ∀ e ∈ fs, e.1 ≠ lnk := by
    intro e he hc
    have := hfresh e he
    rw [hc, hlnk, segsLe_append] at this
    cases this
  have htd_ne_tgt : env.testDir ≠ tgt := by
    intro hc
    have := congrArg List.length hc
    simp [htgt] at this
  have htd_ne_lnk : env.testDir ≠ lnk := by
    intro hc
    have := congrArg List.length hc
    simp [hlnk] at this
  have htgt_ne_lnk : tgt ≠ lnk := by
    rw [htgt, hlnk]
    intro hc
    have := List.append_inj_right hc rfl
    simp at this
  -- writeFileFS on the fresh target file
  have hens1 : ensureDirFS (fs ++ [(env.testDir, Entry.dir)]) env.testDir =
      fs ++ [(env.testDir, Entry.dir)] := by
    refine ensureDir_of_all_present _ _ (fun q hq => ?_)
    by_cases hqp : q = env.testDir
    · subst hqp
      rw [lookupFS_append_of_none fs _ _ hnone, lookupFS_cons]
      simp
    · rw [lookupFS_append_of_isSome fs _ q (hanc q hq hqp)]
      exact hanc q hq hqp
  have hlook_tgt : lookupFS (fs ++ [(env.testDir, Entry.dir)]) tgt = none := by
    refine lookupFS_none_of _ _ (fun e he => ?_)
    rcases List.mem_append.mp he with hin | hin
    · exact hnotgt e hin
    · rcases List.mem_singleton.mp hin with rfl
      exact htd_ne_tgt
  have h2 : writeFileFS (fs ++ [(env.testDir, Entry.dir)]) tgt (str "test") =
      fs ++ [(env.testDir, Entry.dir)] ++ [(tgt, Entry.file (str "test"))] := by
    unfold writeFileFS
    rw [htgt, List.dropLast_concat, ← htgt, hens1, setFS,
      if_neg (by simp [hlook_tgt])]
  have hlook_lnk :
      lookupFS (fs ++ [(env.testDir, Entry.dir)] ++ [(tgt, Entry.file (str "test"))])
        lnk = none := by
    refine lookupFS_none_of _ _ (fun e he => ?_)
    rcases List.mem_append.mp he with hin | hin
    · rcases List.mem_append.mp hin with hin2 | hin2
      · exact hnolnk e hin2
      · rcases List.mem_singleton.mp hin2 with rfl
        exact htd_ne_lnk
    · rcases List.mem_singleton.mp hin with rfl
      exact htgt_ne_lnk
  have hrm1 :
      removeFS (fs ++ [(env.testDir, Entry.dir)] ++ [(tgt, Entry.file (str "test"))] ++
        [(lnk, Entry.symlink "test-target")]) env.testDir = fs := by
    rw [List.append_assoc, List.append_assoc, ← List.append_assoc
      [(env.testDir, Entry.dir)]]
    refine removeFS_restores fs _ env.testDir hfresh ?_
    intro e he
    rcases List.mem_append.mp he with hin | hin
    · rcases List.mem_append.mp hin with hin2 | hin2
      · rcases List.mem_singleton.mp hin2 with rfl
        exact segsLe_refl _
      · rcases List.mem_singleton.mp hin2 with rfl
        rw [htgt]; exact segsLe_append _ _
    · rcases List.mem_singleton.mp hin with rfl
      rw [hlnk]; exact segsLe_append _ _
  have hrm2 :
      removeFS (fs ++ [(env.testDir, Entry.dir)] ++ [(tgt, Entry.file (str "test"))])
        env.testDir = fs := by
    rw [List.append_assoc]
    refine removeFS_restores fs _ env.testDir hfresh ?_
    intro e he
    rcases List.mem_append.mp he with hin | hin
    · rcases List.mem_singleton.mp hin with rfl
      exact segsLe_refl _
    · rcases List.mem_singleton.mp hin with rfl
      rw [htgt]; exact segsLe_append _ _
  by_cases hok : env.symlinkWorks
  · have hset : setFS
        (fs ++ [(env.testDir, Entry.dir)] ++ [(tgt, Entry.file (str "test"))]) lnk
        (Entry.symlink "test-target") =
        fs ++ [(env.testDir, Entry.dir)] ++ [(tgt, Entry.file (str "test"))] ++
          [(lnk, Entry.symlink "test-target")] := by
      rw [setFS, if_neg (by simp only [hlook_lnk]; simp)]
    simp only [isSymlinkSupported, hw, hok, if_true, h1, h2, hset]
    exact hrm1
  · simp only [isSymlinkSupported, hw, hok, if_true, if_false, h1, h2]
    exact hrm2

/-- Claim C1, amended: Computing a change set performs no writes on any
path outside the win32 symlink-capability probe: on a non-win32 host (or
with `skipSymlinks`) both the scaffold plan and the upgrade plan have an
empty write trace, and on every host the filesystem after either plan
call equals the filesystem before it, provided the probe's temp directory
is fresh and the temp root exists.  (By the counterexample, on win32 the
probe does write — and then remove — a test directory, file and symlink,
so "only existence checks and reads occur" is not literally true.) -/
theorem c1_plan_mutates_nothing (m : Manifest) (vars : List (Str × Str))
    (root : Path) (opts : Options) (env : HostEnv) (fs : FS)
    (hne : env.testDir ≠ [])
    (hanc : ∀ q ∈ ancestors env.testDir, q ≠ env.testDir →
      (lookupFS fs q).isSome = true)
    (hfresh : ∀ e ∈ fs, segsLe env.testDir e.1 = false) :
    (scaffoldPlan m vars root opts env fs).2.1 = fs ∧
    (env.win32 = false ∨ opts.skipSymlinks = true →
      (scaffoldPlan m vars root opts env fs).2.2 = []) ∧
    ∀ r, upgradePlan m vars root opts env fs = some r →
      r.2.1 = fs ∧
      (env.win32 = false ∨ opts.skipSymlinks = true → r.2.2 = []) := by
  have hprobe : (isSymlinkSupported env fs).2.1 = fs :=
    probe_restores env fs hne hanc hfresh
  have htrace : env.win32 = false → isSymlinkSupported env fs = (true, fs, []) := by
    intro hw
    simp [isSymlinkSupported, hw]
  refine ⟨?_, ?_, ?_⟩
  · by_cases hs : opts.skipSymlinks
    · simp [scaffoldPlan, hs]
    · by_cases hp : (isSymlinkSupported env fs).1 <;>
        simp [scaffoldPlan, hs, hp, hprobe]
  · rintro (hw | hs)
    · have hpr := htrace hw
      by_cases hs : opts.skipSymlinks <;> simp [scaffoldPlan, hs, hpr]
    · simp [scaffoldPlan, hs]
  · intro r hr
    simp only [upgradePlan] at hr
    split at hr
    · exact absurd hr (by simp)
    · rw [Option.some.injEq] at hr
      subst hr
      constructor
      · by_cases hs : opts.skipSymlinks
        · simp [hs]
        · by_cases hp : (isSymlinkSupported env fs).1 <;> simp [hs, hp, hprobe]
      · rintro (hw | hs)
        · have hpr := htrace hw
          by_cases hs : opts.skipSymlinks <;> simp [hs, hpr]
        · simp [hs]

/-- Claim C1, witness. -/
theorem c1_witness : (scaffoldPlan mFix [] [] optsPlain envW fsTmp).2.1 = fsTmp :=
  (c1_plan_mutates_nothing mFix [] [] optsPlain envW fsTmp (by decide)
    (by decide) (by decide)).1

/-- Claim C5, amended: The scaffold plan's per-file decision: a
`FileSpec` is planned as a `create` exactly when its destination does not
exist or the caller's `force` flag is set — `force` overrides
`skipIfExists` as well.  Without `force`, an existing destination with
`skipIfExists = true` is recorded as a skip with reason
"already exists".  The plan's `files` list is exactly the per-file
decision mapped over `manifest.files`. -/
theorem c5_scaffold_file_decision (m : Manifest) (vars : List (Str × Str))
    (root : Path) (opts : Options) (env : HostEnv) (fs : FS) (f : FileSpec) :
    (scaffoldPlan m vars root opts env fs).1.files =
      m.files.map (planFileAct fs root opts vars) ∧
    ((planFileAct fs root opts vars f).action = "create" ↔
      (existsSync fs (jp root f.dest) = false ∨ opts.force = true)) ∧
    (existsSync fs (jp root f.dest) = true → f.skipIfExists = true →
      opts.force = false →
      planFileAct fs root opts vars f =
        ⟨"skip", f.dest, some "already exists", none, []⟩) := by
  refine ⟨rfl, ?_, ?_⟩
  · by_cases hex : existsSync fs (jp root f.dest) <;>
      by_cases hsk : f.skipIfExists <;>
      by_cases hf : opts.force <;>
      simp [planFileAct, hex, hsk, hf]
  · intro h1 h2 h3
    simp [planFileAct, h1, h2, h3]

/-- Claim C5, witness. -/
theorem c5_witness :
    planFileAct fs6 [] optsNoSym [] ⟨"AGENTS.md", "agents-tmpl", true⟩ =
      ⟨"skip", "AGENTS.md", some "already exists", none, []⟩ :=
  (c5_scaffold_file_decision mFix [] [] optsNoSym envU fs6
    ⟨"AGENTS.md", "agents-tmpl", true⟩).2.2 (by decide) (by decide) (by decide)

/-- Claim C2: The upgrade plan's `moves` list is exactly the fixed
three-pair migration table filtered by "old path exists and new path does
not": one move per qualifying pair, and nothing outside the table. -/
theorem c2_upgrade_moves_table (m : Manifest) (vars : List (Str × Str))
    (root : Path) (opts : Options) (env : HostEnv) (fs : FS)
    (r : UpgChanges × FS × List WriteEv)
    (h : upgradePlan m vars root opts env fs = some r) :
    r.1.moves =
      (MIGRATIONS_directories.filter (fun mg =>
        existsSync fs (jp root mg.1) && !existsSync fs (jp root mg.2))).map
        (fun mg => MoveRec.mk mg.1 mg.2) ∧
    ∀ a b, MoveRec.mk a b ∈ r.1.moves ↔
      ((a, b) ∈ MIGRATIONS_directories ∧
        existsSync fs (jp root a) = true ∧ existsSync fs (jp root b) = false) := by
  simp only [upgradePlan] at h
  split at h
  · exact absurd h (by simp)
  · rw [Option.some.injEq] at h
    subst h
    refine ⟨rfl, ?_⟩
    intro a b
    simp only [List.mem_map, List.mem_filter, MoveRec.mk.injEq]
    constructor
    · rintro ⟨mg, ⟨hmem, hpred⟩, ha, hb⟩
      subst ha; subst hb
      simp only [Bool.and_eq_true, Bool.not_eq_true'] at hpred
      exact ⟨hmem, hpred.1, hpred.2⟩
    · rintro ⟨hmem, h1, h2⟩
      exact ⟨(a, b), ⟨hmem, by simp [h1, h2]⟩, rfl, rfl⟩

/-- Claim C2, witness. -/
theorem c2_witness :
    upC2res.1.moves =
      (MIGRATIONS_directories.filter (fun mg =>
        existsSync fsC2 (jp [] mg.1) && !existsSync fsC2 (jp [] mg.2))).map
        (fun mg => MoveRec.mk mg.1 mg.2) :=
  (c2_upgrade_moves_table mEmpty [] [] optsNoSym envU fsC2 upC2res (by decide)).1

theorem hasPre_self (s : Str) : hasPre s s = true := by
  simpa using hasPre_refl_append s []

theorem containsSub_cons (c : Char) (t : Str) (pat : Str) :
    containsSub (c :: t) pat = (hasPre pat (c :: t) || containsSub t pat) := by
  by_cases h : hasPre pat (c :: t) = true <;> simp [containsSub, findIdx, h]

theorem hasPre_mono_append (pat s t : Str) (h : hasPre pat s = true) :
    hasPre pat (s ++ t) = true := by
  induction pat generalizing s with
  | nil => rfl
  | cons a ps ih =>
    cases s with
    | nil => simp [hasPre] at h
    | cons b s' =>
      simp only [hasPre, Bool.and_eq_true, decide_eq_true_eq] at h
      simp only [List.cons_append, hasPre, Bool.and_eq_true, decide_eq_true_eq]
      exact ⟨h.1, ih s' h.2⟩

theorem containsSub_append_left (s t pat : Str) (h : containsSub s pat = true) :
    containsSub (s ++ t) pat = true := by
  induction s with
  | nil =>
    have hp : pat = [] := by
      cases pat with
      | nil => rfl
      | cons a ps => simp [containsSub, findIdx, hasPre] at h
    subst hp
    cases t <;> simp [containsSub, findIdx, hasPre]
  | cons c s' ih =>
    rw [containsSub_cons] at h
    rw [List.cons_append, containsSub_cons]
    rcases Bool.or_eq_true_iff.mp h with h1 | h2
    · rw [← List.cons_append]
      rw [hasPre_mono_append pat _ t h1]
      rfl
    · rw [ih h2]
      simp

theorem containsSub_append_right (s t pat : Str) (h : containsSub t pat = true) :
    containsSub (s ++ t) pat = true := by
  induction s with
  | nil => simpa using h
  | cons c s' ih =>
    rw [List.cons_append, containsSub_cons, ih]
    simp

theorem containsSub_self_append (l t : Str) : containsSub (l ++ t) l = true := by
  unfold containsSub findIdx
  rw [if_pos (hasPre_refl_append l t)]
  rfl

theorem mem_contains_intercal (l : Str) (L : List Str) (sep : Str)
    (h : l ∈ L) : containsSub (intercalStr sep L) l = true := by
  induction L with
  | nil => cases h
  | cons a L ih =>
    cases L with
    | nil =>
      rcases List.mem_singleton.mp h with rfl
      simpa [intercalStr, List.intersperse] using containsSub_self_append l []
    | cons b L' =>
      rcases List.mem_cons.mp h with rfl | hmem
      · have : intercalStr sep (l :: b :: L') =
            l ++ (sep ++ intercalStr sep (b :: L')) := by
          simp [intercalStr, List.intersperse]
        rw [this]
        exact containsSub_self_append l _
      · have : intercalStr sep (a :: b :: L') =
            a ++ (sep ++ intercalStr sep (b :: L')) := by
          simp [intercalStr, List.intersperse]
        rw [this]
        exact containsSub_append_right a _ l
          (containsSub_append_right sep _ l (ih hmem))

theorem gitignoreRead_eq (fs : FS) (root : Path) :
    gitignoreRead fs root = (readFileFS fs (jp root ".gitignore")).getD [] := by
  unfold gitignoreRead existsSync
  cases hl : lookupFS fs (jp root ".gitignore") with
  | none =>
    rw [show (40 : Nat) = 39 + 1 from rfl]
    simp [existsFuel, readFileFS, hl]
  | some e =>
    rw [show (40 : Nat) = 39 + 1 from rfl]
    cases e <;> simp [existsFuel, readFileFS, hl]

/-- Claim C8: Appending the same gitignore line set twice is idempotent:
the second `appendGitignore` call adds no line and does not change the
filesystem, and the `.gitignore` content that existed before the first
call is a byte-for-byte prefix of the content after it. -/
theorem c8_gitignore_append_idem (fs : FS) (root : Path) (lines : List Str) :
    appendGitignore root lines (appendGitignore root lines fs).1 =
      ((appendGitignore root lines fs).1, []) ∧
    hasPre (gitignoreRead fs root)
      (gitignoreRead (appendGitignore root lines fs).1 root) = true := by
  cases hA : lines.filter (fun l => !containsSub (gitignoreRead fs root) l) with
  | nil =>
    have h1 : appendGitignore root lines fs = (fs, []) := by
      simp [appendGitignore, hA]
    rw [h1]
    exact ⟨by simp [appendGitignore, hA], hasPre_self _⟩
  | cons a A' =>
    have h1 : appendGitignore root lines fs =
        (appendFileFS fs (jp root ".gitignore")
          ((if endsWithNl (gitignoreRead fs root) then [] else ['\n']) ++
            gitignoreHeader ++ intercalStr ['\n'] (a :: A') ++ ['\n']),
         a :: A') := by
      simp [appendGitignore, hA]
    set toApp :=
      (if endsWithNl (gitignoreRead fs root) then [] else ['\n']) ++
        gitignoreHeader ++ intercalStr ['\n'] (a :: A') ++ ['\n'] with htoApp
    have h2 : appendFileFS fs (jp root ".gitignore") toApp =
        writeFileFS fs (jp root ".gitignore")
          (gitignoreRead fs root ++ toApp) := by
      rw [appendFileFS, gitignoreRead_eq]
    have h3 : gitignoreRead
        (writeFileFS fs (jp root ".gitignore") (gitignoreRead fs root ++ toApp))
        root = gitignoreRead fs root ++ toApp := by
      rw [gitignoreRead_eq, readFile_writeFile]
      rfl
    have hcontains : ∀ l ∈ lines,
        containsSub (gitignoreRead fs root ++ toApp) l = true := by
      intro l hl
      by_cases hc : containsSub (gitignoreRead fs root) l = true
      · exact containsSub_append_left _ _ _ hc
      · have hmem : l ∈ a :: A' := by
          rw [← hA]
          refine List.mem_filter.mpr ⟨hl, ?_⟩
          simp only [Bool.not_eq_true'] at hc ⊢
          exact Bool.not_eq_true _ ▸ (by simp [hc])
        refine containsSub_append_right _ _ _ ?_
        rw [htoApp]
        have hin : containsSub (intercalStr ['\n'] (a :: A')) l = true :=
          mem_contains_intercal l (a :: A') ['\n'] hmem
        have s1 : containsSub (intercalStr ['\n'] (a :: A') ++ ['\n']) l = true :=
          containsSub_append_left _ _ _ hin
        have s2 :
            containsSub
              ((if endsWithNl (gitignoreRead fs root) then [] else ['\n']) ++
                gitignoreHeader ++ intercalStr ['\n'] (a :: A')) l = true := by
          rw [List.append_assoc]
          exact containsSub_append_right _ _ _
            (containsSub_append_right _ _ _ hin)
        rw [List.append_assoc, List.append_assoc]
        refine containsSub_append_right _ _ _ ?_
        rw [← List.append_assoc]
        exact containsSub_append_left _ _ _
          (containsSub_append_right _ _ _ hin)
    have hA2 : lines.filter
        (fun l => !containsSub (gitignoreRead
          (writeFileFS fs (jp root ".gitignore")
            (gitignoreRead fs root ++ toApp)) root) l) = [] := by
      rw [h3]
      refine List.filter_eq_nil_iff.mpr ?_
      intro l hl
      simp [hcontains l hl]
    refine ⟨?_, ?_⟩
    · rw [h1]
      simp only [h2]
      simp [appendGitignore, hA2]
    · rw [h1]
      simp only [h2, h3]
      exact hasPre_refl_append _ _

theorem replA_fuel_congr (p0 : Char) (ps rep : Str) :
    ∀ fuel fuel' s, s.length ≤ fuel → s.length ≤ fuel' →
      replA p0 ps rep fuel s = replA p0 ps rep fuel' s := by
  intro fuel
  induction fuel with
  | zero =>
    intro fuel' s hs _
    have : s = [] := List.eq_nil_of_length_eq_zero (Nat.le_zero.mp hs)
    subst this
    cases fuel' <;> rfl
  | succ f ih =>
    intro fuel' s hs hs'
    cases s with
    | nil => cases fuel' <;> rfl
    | cons c rest =>
      cases fuel' with
      | zero => simp at hs'
      | succ f' =>
        simp only [replA]
        by_cases h : hasPre (p0 :: ps) (c :: rest) = true
        · rw [if_pos h, if_pos h]
          congr 1
          refine ih f' _ ?_ ?_ <;>
            simp only [List.length_drop] <;>
            simp only [List.length_cons] at hs hs' <;> omega
        · rw [if_neg h, if_neg h]
          congr 1
          refine ih f' rest ?_ ?_ <;>
            simp only [List.length_cons] at hs hs' <;> omega

theorem replaceAll_cons_skip (p0 : Char) (ps rep : Str) (c : Char) (rest : Str)
    (h : hasPre (p0 :: ps) (c :: rest) = false) :
    replaceAll (c :: rest) (p0 :: ps) rep = c :: replaceAll rest (p0 :: ps) rep := by
  show replA p0 ps rep (c :: rest).length (c :: rest) =
    c :: replA p0 ps rep rest.length rest
  rw [List.length_cons]
  simp only [replA, h]
  simp

theorem replaceAll_append_match (p0 : Char) (ps rep rest : Str) :
    replaceAll ((p0 :: ps) ++ rest) (p0 :: ps) rep =
      rep ++ replaceAll rest (p0 :: ps) rep := by
  show replA p0 ps rep ((p0 :: ps) ++ rest).length ((p0 :: ps) ++ rest) =
    rep ++ replA p0 ps rep rest.length rest
  have hlen : ((p0 :: ps) ++ rest).length = (ps.length + rest.length) + 1 := by
    simp only [List.length_append, List.length_cons]
    omega
  rw [hlen]
  have hpre : hasPre (p0 :: ps) (p0 :: (ps ++ rest)) = true := by
    rw [← List.cons_append]
    exact hasPre_refl_append (p0 :: ps) rest
  simp only [List.cons_append, replA, hpre, if_true]
  congr 1
  rw [show List.drop ps.length (ps ++ rest) = rest from List.drop_left ps rest]
  exact replA_fuel_congr p0 ps rep (ps.length + rest.length) rest.length rest
    (by omega) (by omega)

theorem replaceAll_append_nolbr (p0 : Char) (ps rep : Str) (lit rest : Str)
    (h : ∀ c ∈ lit, c ≠ p0) :
    replaceAll (lit ++ rest) (p0 :: ps) rep =
      lit ++ replaceAll rest (p0 :: ps) rep := by
  induction lit with
  | nil => rfl
  | cons c cs ih =>
    have hpre : hasPre (p0 :: ps) (c :: (cs ++ rest)) = false := by
      simp only [hasPre, Bool.and_eq_false_iff]
      left
      simp only [decide_eq_false_iff_not]
      exact fun hc => h c (by simp) hc.symm
    rw [List.cons_append, replaceAll_cons_skip p0 ps rep c (cs ++ rest) hpre,
      ih (fun c hc => h c (by simp [hc]))]
    simp

theorem containsSub_append_nolbr (p0 : Char) (ps : Str) (lit rest : Str)
    (h : ∀ c ∈ lit, c ≠ p0) :
    containsSub (lit ++ rest) (p0 :: ps) = containsSub rest (p0 :: ps) := by
  induction lit with
  | nil => rfl
  | cons c cs ih =>
    have hpre : hasPre (p0 :: ps) (c :: (cs ++ rest)) = false := by
      simp only [hasPre, Bool.and_eq_false_iff]
      left
      simp only [decide_eq_false_iff_not]
      exact fun hc => h c (by simp) hc.symm
    rw [List.cons_append, containsSub_cons, hpre,
      ih (fun c hc => h c (by simp [hc]))]
    simp

theorem safeKeyChar_ne_lbr (c : Char) (h : safeKeyChar c = true) : c ≠ lbr := by
  intro hc
  subst hc
  revert h
  decide

theorem safeKeyChar_ne_rbr (c : Char) (h : safeKeyChar c = true) : c ≠ rbr := by
  intro hc
  subst hc
  revert h
  decide

theorem hasPre_keys_ne (k j rest : Str)
    (hk : k.all safeKeyChar = true) (hj : j.all safeKeyChar = true)
    (hne : k ≠ j) :
    hasPre (k ++ [rbr, rbr]) (j ++ ([rbr, rbr] ++ rest)) = false := by
  induction k generalizing j with
  | nil =>
    cases j with
    | nil => exact absurd rfl hne
    | cons c j' =>
      have hc : safeKeyChar c = true := by
        simp only [List.all_cons, Bool.and_eq_true] at hj
        exact hj.1
      simp only [List.nil_append, List.cons_append, hasPre, Bool.and_eq_false_iff]
      left
      simp only [decide_eq_false_iff_not]
      exact fun hcon => safeKeyChar_ne_rbr c hc hcon.symm
  | cons a k' ih =>
    have hka : safeKeyChar a = true ∧ k'.all safeKeyChar = true := by
      simp only [List.all_cons, Bool.and_eq_true] at hk
      exact hk
    cases j with
    | nil =>
      simp only [List.cons_append, List.nil_append, hasPre, Bool.and_eq_false_iff]
      left
      simp only [decide_eq_false_iff_not]
      exact safeKeyChar_ne_rbr a hka.1
    | cons b j' =>
      have hjb : safeKeyChar b = true ∧ j'.all safeKeyChar = true := by
        simp only [List.all_cons, Bool.and_eq_true] at hj
        exact hj
      by_cases hab : a = b
      · subst hab
        have hne' : k' ≠ j' := fun hcon => hne (by rw [hcon])
        simp only [List.cons_append, hasPre, Bool.and_eq_false_iff]
        right
        exact ih j' hka.2 hjb.2 hne'
      · simp only [List.cons_append, hasPre, Bool.and_eq_false_iff]
        left
        simp only [decide_eq_false_iff_not]
        exact hab

theorem hasPre_placeholder_ne (k j rest : Str)
    (hk : k.all safeKeyChar = true) (hj : j.all safeKeyChar = true)
    (hne : k ≠ j) :
    hasPre (placeholder k) (placeholder j ++ rest) = false := by
  simp only [placeholder, List.cons_append, List.append_assoc, hasPre,
    decide_True, Bool.true_and]
  have h := hasPre_keys_ne k j rest hk hj hne
  rw [← List.append_assoc] at h
  exact h

theorem hasPre_pat_inner (k j rest : Str) (hj : j.all safeKeyChar = true) :
    hasPre (lbr :: (k ++ [rbr, rbr])) (j ++ ([rbr, rbr] ++ rest)) = false := by
  cases j with
  | nil =>
    simp only [List.nil_append, List.cons_append, hasPre, Bool.and_eq_false_iff]
    left
    simp only [decide_eq_false_iff_not]
    intro hcon
    exact absurd hcon.symm (by decide)
  | cons c j' =>
    have hc : safeKeyChar c = true := by
      simp only [List.all_cons, Bool.and_eq_true] at hj
      exact hj.1
    simp only [List.cons_append, hasPre, Bool.and_eq_false_iff]
    left
    simp only [decide_eq_false_iff_not]
    exact fun hcon => safeKeyChar_ne_lbr c hc hcon.symm

theorem hasPre_placeholder_mid (k j rest : Str) (hj : j.all safeKeyChar = true) :
    hasPre (placeholder k) (lbr :: (j ++ ([rbr, rbr] ++ rest))) = false := by
  simp only [placeholder, hasPre, decide_True, Bool.true_and]
  exact hasPre_pat_inner k j rest hj

theorem hasPre_placeholder_rbr (k : Str) (rest : Str) :
    hasPre (placeholder k) (rbr :: rest) = false := by
  simp only [placeholder, hasPre, Bool.and_eq_false_iff]
  left
  simp only [decide_eq_false_iff_not]
  intro hcon
  exact absurd hcon.symm (by decide)

theorem replaceAll_append_ph (k j v rest : Str)
    (hk : k.all safeKeyChar = true) (hj : j.all safeKeyChar = true)
    (hne : j ≠ k) :
    replaceAll (placeholder j ++ rest) (placeholder k) v =
      placeholder j ++ replaceAll rest (placeholder k) v := by
  have e1 : placeholder j ++ rest =
      lbr :: (lbr :: (j ++ ([rbr, rbr] ++ rest))) := by
    simp [placeholder]
  rw [e1]
  rw [show placeholder k = lbr :: (lbr :: (k ++ [rbr, rbr])) from rfl]
  rw [replaceAll_cons_skip _ _ _ _ _ (by
    rw [← e1, ← show placeholder k = lbr :: (lbr :: (k ++ [rbr, rbr])) from rfl]
    exact hasPre_placeholder_ne k j rest hk hj (Ne.symm hne))]
  rw [replaceAll_cons_skip _ _ _ _ _ (by
    rw [← show placeholder k = lbr :: (lbr :: (k ++ [rbr, rbr])) from rfl]
    exact hasPre_placeholder_mid k j rest hj)]
  rw [replaceAll_append_nolbr _ _ _ j _ (fun c hc =>
    safeKeyChar_ne_lbr c (by
      rw [List.all_eq_true] at hj
      exact hj c hc))]
  rw [show ([rbr, rbr] ++ rest : Str) = rbr :: (rbr :: rest) from rfl]
  rw [replaceAll_cons_skip _ _ _ _ _ (by
    rw [← show placeholder k = lbr :: (lbr :: (k ++ [rbr, rbr])) from rfl]
    exact hasPre_placeholder_rbr k (rbr :: rest))]
  rw [replaceAll_cons_skip _ _ _ _ _ (by
    rw [← show placeholder k = lbr :: (lbr :: (k ++ [rbr, rbr])) from rfl]
    exact hasPre_placeholder_rbr k rest)]
  simp [placeholder]

theorem replaceAll_append_ph_eq (k v rest : Str) :
    replaceAll (placeholder k ++ rest) (placeholder k) v =
      v ++ replaceAll rest (placeholder k) v := by
  rw [show placeholder k = lbr :: (lbr :: (k ++ [rbr, rbr])) from rfl]
  exact replaceAll_append_match lbr (lbr :: (k ++ [rbr, rbr])) v rest

theorem containsSub_append_key (k j rest : Str) (h : ∀ c ∈ j, c ≠ lbr) :
    containsSub (j ++ rest) (placeholder k) = containsSub rest (placeholder k) :=
  containsSub_append_nolbr lbr (lbr :: (k ++ [rbr, rbr])) j rest h

theorem replaceAll_append_lit (k v s rest : Str) (hs : ∀ c ∈ s, c ≠ lbr) :
    replaceAll (s ++ rest) (placeholder k) v =
      s ++ replaceAll rest (placeholder k) v :=
  replaceAll_append_nolbr lbr (lbr :: (k ++ [rbr, rbr])) v s rest hs

theorem safeKey_chars_ne_lbr (j : Str) (hj : j.all safeKeyChar = true) :
    ∀ c ∈ j, c ≠ lbr := fun c hc =>
  safeKeyChar_ne_lbr c (by
    rw [List.all_eq_true] at hj
    exact hj c hc)

theorem braceFree_chars_ne_lbr (s : Str) (hs : braceFree s = true) :
    ∀ c ∈ s, c ≠ lbr := by
  intro c hc
  rw [braceFree, List.all_eq_true] at hs
  have h2 := hs c hc
  simp only [Bool.not_eq_true', Bool.or_eq_false_iff, decide_eq_false_iff_not] at h2
  exact h2.1

theorem containsSub_append_ph (k j rest : Str)
    (hk : k.all safeKeyChar = true) (hj : j.all safeKeyChar = true)
    (hne : j ≠ k) :
    containsSub (placeholder j ++ rest) (placeholder k) =
      containsSub rest (placeholder k) := by
  have e1 : placeholder j ++ rest =
      lbr :: (lbr :: (j ++ ([rbr, rbr] ++ rest))) := by
    simp [placeholder]
  rw [e1, containsSub_cons, ← e1,
    hasPre_placeholder_ne k j rest hk hj (Ne.symm hne)]
  rw [containsSub_cons, hasPre_placeholder_mid k j rest hj]
  rw [containsSub_append_key k j ([rbr, rbr] ++ rest) (safeKey_chars_ne_lbr j hj)]
  rw [show ([rbr, rbr] ++ rest : Str) = rbr :: (rbr :: rest) from rfl]
  rw [containsSub_cons, hasPre_placeholder_rbr k (rbr :: rest)]
  rw [containsSub_cons, hasPre_placeholder_rbr k rest]
  simp

theorem substToks_nil (toks : List Tok) : substToks [] toks = toks := by
  unfold substToks
  induction toks with
  | nil => rfl
  | cons t ts ih =>
    rw [List.map_cons, ih]
    cases t <;> rfl

theorem substToks_cons_entry (k v : Str) (m : List (Str × Str)) (toks : List Tok) :
    substToks m (substOne k v toks) = substToks ((k, v) :: m) toks := by
  induction toks with
  | nil => rfl
  | cons t ts ih =>
    simp only [substOne, substToks, List.map_cons] at ih ⊢
    rw [ih]
    congr 1
    cases t with
    | lit s => rfl
    | ph j =>
      by_cases hjk : j = k
      · subst hjk
        simp [lookupVar, List.find?]
      · have hkj : ¬(k = j) := fun h => hjk h.symm
        simp [lookupVar, List.find?, hjk, hkj]

theorem wf_substOne (k v : Str) (toks : List Tok)
    (hv : braceFree v = true) (hwf : ∀ t ∈ toks, wfTok t = true) :
    ∀ t ∈ substOne k v toks, wfTok t = true := by
  intro t ht
  rcases List.mem_map.mp ht with ⟨t0, ht0, rfl⟩
  cases t0 with
  | lit s => exact hwf _ ht0
  | ph j =>
    by_cases hjk : j = k
    · simp only [hjk, if_true]
      exact hv
    · simp only [hjk, if_false]
      exact hwf _ ht0

theorem lookupVar_mem (m : List (Str × Str)) (k v : Str)
    (h : lookupVar m k = some v) : (k, v) ∈ m := by
  unfold lookupVar at h
  cases hf : m.find? (fun kv => decide (kv.1 = k)) with
  | none => rw [hf] at h; cases h
  | some x =>
    rw [hf] at h
    have hx1 : x.1 = k := by
      have hp := List.find?_some hf
      simpa using hp
    have hx2 : x.2 = v := by
      simpa using h
    have hmem := List.mem_of_find?_eq_some hf
    have : x = (k, v) := by
      cases x
      simp only [Prod.mk.injEq]
      exact ⟨hx1, hx2⟩
    rw [← this]
    exact hmem

theorem wf_substToks (m : List (Str × Str)) (toks : List Tok)
    (hm : ∀ kv ∈ m, wfEntry kv = true) (hwf : ∀ t ∈ toks, wfTok t = true) :
    ∀ t ∈ substToks m toks, wfTok t = true := by
  intro t ht
  rcases List.mem_map.mp ht with ⟨t0, ht0, rfl⟩
  cases t0 with
  | lit s => exact hwf _ ht0
  | ph j =>
    cases hl : lookupVar m j with
    | none =>
      simp only [hl]
      exact hwf _ ht0
    | some v =>
      simp only [hl]
      have hkv := hm (j, v) (lookupVar_mem m j v hl)
      simp only [wfEntry, Bool.and_eq_true] at hkv
      exact hkv.1.2

theorem subst_one_flatten (k v : Str) (toks : List Tok)
    (hk : k.all safeKeyChar = true) (hwf : ∀ t ∈ toks, wfTok t = true) :
    replaceAll (flattenToks toks) (placeholder k) v =
      flattenToks (substOne k v toks) := by
  induction toks with
  | nil => rfl
  | cons t ts ih =>
    have ihts := ih (fun t ht => hwf t (by simp [ht]))
    cases t with
    | lit s =>
      have hwfs := hwf (.lit s) (by simp)
      rw [show flattenToks (Tok.lit s :: ts) = s ++ flattenToks ts from rfl]
      rw [replaceAll_append_lit k v s _ (braceFree_chars_ne_lbr s hwfs)]
      rw [ihts]
      rfl
    | ph j =>
      have hwfj := hwf (.ph j) (by simp)
      simp only [wfTok, safeKey, Bool.and_eq_true] at hwfj
      rw [show flattenToks (Tok.ph j :: ts) = placeholder j ++ flattenToks ts from rfl]
      by_cases hjk : j = k
      · subst hjk
        rw [replaceAll_append_ph_eq j v (flattenToks ts), ihts]
        simp only [substOne, List.map_cons, if_pos rfl]
        rfl
      · rw [replaceAll_append_ph k j v (flattenToks ts) hk hwfj.1 hjk, ihts]
        simp only [substOne, List.map_cons, if_neg hjk]
        rfl

theorem renderTemplate_flatten (m : List (Str × Str)) (toks : List Tok)
    (hm : ∀ kv ∈ m, wfEntry kv = true) (hwf : ∀ t ∈ toks, wfTok t = true) :
    renderTemplate (flattenToks toks) m = flattenToks (substToks m toks) := by
  induction m generalizing toks with
  | nil =>
    rw [substToks_nil]
    rfl
  | cons kv m' ih =>
    obtain ⟨k, v⟩ := kv
    have hkv := hm (k, v) (by simp)
    simp only [wfEntry, safeKey, Bool.and_eq_true] at hkv
    have hm' : ∀ kv ∈ m', wfEntry kv = true := fun kv h => hm kv (by simp [h])
    have hwf' := wf_substOne k v toks hkv.1.2 hwf
    calc renderTemplate (flattenToks toks) ((k, v) :: m')
        = renderTemplate (replaceAll (flattenToks toks) (placeholder k) v) m' := rfl
      _ = renderTemplate (flattenToks (substOne k v toks)) m' := by
            rw [subst_one_flatten k v toks hkv.1.1.1 hwf]
      _ = flattenToks (substToks m' (substOne k v toks)) :=
            ih (substOne k v toks) hm' hwf'
      _ = flattenToks (substToks ((k, v) :: m') toks) := by
            rw [substToks_cons_entry]

theorem not_contains_flatten (k : Str) (toks : List Tok)
    (hk : k.all safeKeyChar = true)
    (hwf : ∀ t ∈ toks, wfTok t = true)
    (hnot : Tok.ph k ∉ toks) :
    containsSub (flattenToks toks) (placeholder k) = false := by
  induction toks with
  | nil => rfl
  | cons t ts ih =>
    have ihts := ih (fun t ht => hwf t (by simp [ht]))
      (fun hmem => hnot (by simp [hmem]))
    cases t with
    | lit s =>
      have hwfs := hwf (.lit s) (by simp)
      rw [show flattenToks (Tok.lit s :: ts) = s ++ flattenToks ts from rfl]
      rw [containsSub_append_key k s _ (braceFree_chars_ne_lbr s hwfs)]
      exact ihts
    | ph j =>
      have hwfj := hwf (.ph j) (by simp)
      simp only [wfTok, safeKey, Bool.and_eq_true] at hwfj
      have hne : j ≠ k := fun h => hnot (by simp [h])
      rw [show flattenToks (Tok.ph j :: ts) = placeholder j ++ flattenToks ts from rfl]
      rw [containsSub_append_ph k j _ hk hwfj.1 hne]
      exact ihts

theorem contains_flatten_of_mem (k : Str) (toks : List Tok)
    (hmem : Tok.ph k ∈ toks) :
    containsSub (flattenToks toks) (placeholder k) = true := by
  induction toks with
  | nil => cases hmem
  | cons t ts ih =>
    rcases List.mem_cons.mp hmem with heq | hmem'
    · rw [← heq]
      exact containsSub_self_append (placeholder k) (flattenToks ts)
    · cases t with
      | lit s =>
        rw [show flattenToks (Tok.lit s :: ts) = s ++ flattenToks ts from rfl]
        exact containsSub_append_right s _ _ (ih hmem')
      | ph j =>
        rw [show flattenToks (Tok.ph j :: ts) = placeholder j ++ flattenToks ts from rfl]
        exact containsSub_append_right (placeholder j) _ _ (ih hmem')

theorem ph_mem_substToks (m : List (Str × Str)) (toks : List Tok) (k : Str) :
    Tok.ph k ∈ substToks m toks ↔ (Tok.ph k ∈ toks ∧ lookupVar m k = none) := by
  constructor
  · intro h
    rcases List.mem_map.mp h with ⟨t0, ht0, heq⟩
    cases t0 with
    | lit s => simp at heq
    | ph j =>
      cases hcase : lookupVar m j with
      | some v =>
        have h2 : (match lookupVar m j with
          | some v => Tok.lit v
          | none => Tok.ph j) = Tok.ph k := heq
        rw [hcase] at h2
        simp at h2
      | none =>
        have h2 : (match lookupVar m j with
          | some v => Tok.lit v
          | none => Tok.ph j) = Tok.ph k := heq
        rw [hcase] at h2
        simp only [Tok.ph.injEq] at h2
        subst h2
        exact ⟨ht0, hcase⟩
  · rintro ⟨hmem, hnone⟩
    refine List.mem_map.mpr ⟨.ph k, hmem, ?_⟩
    simp [hnone]

/-- Claim C7, amended: For well-formed templates — braces occur only as
`\x7b\x7bKEY\x7d\x7d` placeholders with nonempty identifier keys — and
benign variable maps — identifier keys, values containing no braces and no
`$` — `renderTemplate` is exactly the token-wise simultaneous
substitution: every placeholder of a key present in the map is replaced by
that key's (first) mapped value, the output contains no placeholder of any
present key, and a placeholder of an absent key occurs in the output
precisely when it occurs in the template.  (By the counterexample this
fails for arbitrary maps: a value may itself contain a placeholder.) -/
theorem c7_render_on_wellformed (toks : List Tok) (m : List (Str × Str))
    (hwf : ∀ t ∈ toks, wfTok t = true) (hm : ∀ kv ∈ m, wfEntry kv = true) :
    renderTemplate (flattenToks toks) m = flattenToks (substToks m toks) ∧
    (∀ k v, lookupVar m k = some v → k.all safeKeyChar = true →
      containsSub (renderTemplate (flattenToks toks) m) (placeholder k) = false) ∧
    (∀ k, lookupVar m k = none → k.all safeKeyChar = true →
      containsSub (renderTemplate (flattenToks toks) m) (placeholder k) =
        containsSub (flattenToks toks) (placeholder k)) := by
  have hmain := renderTemplate_flatten m toks hm hwf
  refine ⟨hmain, ?_, ?_⟩
  · intro k v hl hk
    rw [hmain]
    refine not_contains_flatten k _ hk (wf_substToks m toks hm hwf) ?_
    intro hc
    rcases (ph_mem_substToks m toks k).mp hc with ⟨_, hnone⟩
    rw [hnone] at hl
    cases hl
  · intro k hl hk
    rw [hmain]
    by_cases hmem : Tok.ph k ∈ toks
    · rw [contains_flatten_of_mem k _ hmem,
        contains_flatten_of_mem k _ ((ph_mem_substToks m toks k).mpr ⟨hmem, hl⟩)]
    · rw [not_contains_flatten k _ hk hwf hmem,
        not_contains_flatten k _ hk (wf_substToks m toks hm hwf) (fun hc =>
          hmem ((ph_mem_substToks m toks k).mp hc).1)]

/-- Claim C7, witness. -/
theorem c7_witness :
    renderTemplate (flattenToks toksW) mW = flattenToks (substToks mW toksW) :=
  (c7_render_on_wellformed toksW mW (by decide) (by decide)).1

/-- Claim C10, counterexample: A symlink that already stores exactly the
requested target but whose target does not resolve: `fs.existsSync(linkPath)`
follows the link and reports false, so the skip branch is bypassed,
`fs.symlinkSync` hits the still-present link and throws `EEXIST` — the
call neither returns `false` nor leaves quietly. -/
theorem c10_dangling_link_throws :
    createSymlinkFS envU ["proj"] "t" ["proj", "l"] false fsC10 =
      Except.error FsErr.eexistLink ∧
    lookupFS fsC10 ["proj", "l"] = some (Entry.symlink "t") := by decide

end WA
